import Mathlib

/-!
Verification of the Componentify classification and dependency-extraction core
(src/src/detect.ts) via a shallow embedding in Lean 4.

Strings are modelled as Lean `String` and lists of `Char`; the regular
expressions of the source are embedded as executable scanners with the same
match semantics; the Babel parse of the dependency extractor is modelled as a
result kind (success with an AST, or failure), following the spec's design
note that the "parse failed" condition is a result-kind rather than
exception propagation.
-/

namespace Componentify

/-! ## Legacy single-shot detector: detectExportType -/

inductive ExportType where
  | component
  | hook
  | unknown
deriving DecidableEq

/-- ASCII alphanumeric, the character class [A-Za-z0-9] of the paired-tag regex. -/
def isAlnumAscii (c : Char) : Bool := c.isAlpha || c.isDigit

/-- The regex word class \w = [A-Za-z0-9_]. -/
def isWordChar (c : Char) : Bool := c.isAlpha || c.isDigit || c = '_'

/-- Does the pattern list occur at the start of the second list? -/
def beginsWith : List Char → List Char → Bool
  | [], _ => true
  | _ :: _, [] => false
  | a :: as, b :: bs => a = b && beginsWith as bs

/-- Does the Bool-valued position matcher succeed at some suffix? -/
def existsSuffix (p : List Char → Bool) : List Char → Bool
  | [] => p []
  | c :: cs => p (c :: cs) || existsSuffix p cs

/-- Does the needle occur as a contiguous sublist of the hay? -/
def containsSub (needle hay : List Char) : Bool :=
  existsSuffix (fun l => beginsWith needle l) hay

/-- Embeds a match of the paired-tag regex starting at this position:
an opening angle bracket, a tag name ([A-Za-z][A-Za-z0-9]*, forced maximal by
the following word boundary), any run of non-close-bracket characters, the
closing bracket of the open tag, then a matching close tag anywhere later
(the dot-all flag lets the middle span newlines). -/
def pairedAt : List Char → Bool
  | '<' :: c :: rest =>
      if c.isAlpha then
        let tagName := c :: rest.takeWhile isAlnumAscii
        let after := rest.dropWhile isAlnumAscii
        match after with
        | [] => false
        | d :: _ =>
          if isWordChar d then false
          else
            match after.dropWhile (fun x => x != '>') with
            | '>' :: tail => containsSub ('<' :: '/' :: tagName ++ ['>']) tail
            | _ => false
      else false
  | _ => false

/-- Scanner for the tail of the self-closing-element regex: a run of
non-close-bracket characters ended by a slash and a close bracket. -/
def selfCloseScan : List Char → Bool
  | '/' :: '>' :: _ => true
  | '>' :: _ => false
  | _ :: rest => selfCloseScan rest
  | [] => false

/-- A match of the self-closing-element regex at this position. -/
def selfClosingAt : List Char → Bool
  | '<' :: c :: rest => isWordChar c && selfCloseScan rest
  | _ => false

/-- A match of the capitalized-tag regex at this position. -/
def capitalizedAt : List Char → Bool
  | '<' :: c :: _ => c.isUpper
  | _ => false

/-- hasJSX of detectExportType: any of the three markup regexes matches. -/
def hasJSX (code : String) : Bool :=
  existsSuffix pairedAt code.toList
    || existsSuffix selfClosingAt code.toList
    || existsSuffix capitalizedAt code.toList

/-- The ten built-in hook primitives of the hook regex. -/
def hookNames : List String :=
  ["useState", "useEffect", "useMemo", "useCallback", "useReducer",
   "useRef", "useContext", "useImperativeHandle", "useLayoutEffect", "useDebugValue"]

/-- One of the ten hook names occurs at this position, with a word boundary
right after it. -/
def hookWordAt (l : List Char) : Bool :=
  hookNames.any fun n =>
    beginsWith n.toList l &&
      (match l.drop n.toList.length with
       | [] => true
       | d :: _ => !isWordChar d)

/-- Scan tracking whether the previous character was a word character, for
the word boundary in front of the hook name. -/
def hasHooksAux : Bool → List Char → Bool
  | _, [] => false
  | prevWord, c :: cs =>
      (!prevWord && hookWordAt (c :: cs)) || hasHooksAux (isWordChar c) cs

/-- hasHooks of detectExportType: the hook regex matches somewhere. -/
def hasHooks (code : String) : Bool := hasHooksAux false code.toList

/-- detectExportType from src/src/detect.ts: markup presence wins over hook
presence; with neither, the result is unknown. -/
def detectExportType (code : String) : ExportType :=
  if hasJSX code then ExportType.component
  else if hasHooks code then ExportType.hook
  else ExportType.unknown

/-! ## Classification engine decision (spec-modelled) -/

/-- Modelled from the spec: the classification engine
(EnhancedDetectionEngine.analyzeCode) is not among the sources, only its
tests are; this models the category decision of spec section 4.2 on the two
summed per-category scores. If the markup score exceeds the hook score and is
positive, the category is component with confidence the markup score over
five capped at one; else a positive hook score gives hook with confidence the
hook score over three capped at one; else unknown with confidence zero. -/
def analyzeCategoryDecision (markupScore hookScore : ℚ) : ExportType × ℚ :=
  if markupScore > hookScore ∧ markupScore > 0 then
    (ExportType.component, min (markupScore / 5) 1)
  else if hookScore > 0 then
    (ExportType.hook, min (hookScore / 3) 1)
  else
    (ExportType.unknown, 0)

/-! ## Dependency extractor data model (interfaces of detect.ts) -/

inductive PropType where
  | primitive
  | object
  | function
  | array
  | unknown
deriving DecidableEq

inductive UsageType where
  | simple
  | objectAccess
  | functionCall
  | conditional
  | arrayMethod
deriving DecidableEq

structure PropUsage where
  type : UsageType
  expression : String
  context : String
deriving DecidableEq

structure DetectedProp where
  name : String
  type : PropType
  inferredType : String
  isRequired : Bool
  defaultValue : Option String
  usage : List PropUsage
deriving DecidableEq

structure ComplexExpression where
  expression : String
  vars : List String
  type : UsageType
  suggestedPropName : String
deriving DecidableEq

structure PropAnalysis where
  props : List DetectedProp
  complexExpressions : List ComplexExpression
  conditionalProps : List String
  totalComplexity : Nat
deriving DecidableEq

/-! The name-keyed prop mapping: a JavaScript Map preserves insertion order,
so it is modelled as an insertion-ordered association list. -/

/-- propMap.has(name). -/
def hasName (m : List DetectedProp) (n : String) : Bool :=
  m.any fun p => p.name == n

/-- propMap.get(name). -/
def lookupProp : List DetectedProp → String → Option DetectedProp
  | [], _ => none
  | p :: ps, n => if p.name = n then some p else lookupProp ps n

/-- The duplicate test of addProp: same expression text and same usage kind. -/
def usageMatches (a b : PropUsage) : Bool :=
  a.expression == b.expression && a.type == b.type

/-- The forEach of addProp over the new usage records: push each one unless a
record with the same expression and kind is already in the (growing) list. -/
def dedupAppend (existing : List PropUsage) : List PropUsage → List PropUsage
  | [] => existing
  | u :: us =>
      if existing.any (fun e => usageMatches e u) then dedupAppend existing us
      else dedupAppend (existing ++ [u]) us

/-- addProp of EnhancedCodeAnalysisService: update the existing entry
(deduplicated usage append, and a type upgrade only from unknown), or append
a fresh entry with isRequired defaulted to true. -/
def addProp (m : List DetectedProp) (name : String) (t : PropType)
    (inferredType : String) (usage : List PropUsage) : List DetectedProp :=
  if hasName m name then
    m.map fun p =>
      if p.name = name then
        let u := dedupAppend p.usage usage
        if p.type = PropType.unknown ∧ t ≠ PropType.unknown then
          { p with type := t, inferredType := inferredType, usage := u }
        else
          { p with usage := u }
      else p
  else
    m ++ [⟨name, t, inferredType, true, none, usage⟩]

/-! ## The Babel AST fragment walked by extractPropsFromJSX

Babel has a single node universe; the constructors below cover the node kinds
the visitors of extractPropsFromJSX dispatch on, plus the JSX structure that
carries the visited expressions. Children are stored in document order, which
is the order `traverse` fires the visitors in (a parent before its children,
and an attribute before the expression container that is its value). -/

mutual
inductive Node where
  | ident (name : String)
  | member (obj : Node) (computed : Bool) (property : Node)
  | call (callee : Node) (args : NodeList)
  | arrow (params : List String) (body : Node)
  | funExpr (params : List String) (body : Node)
  | cond (test consequent alternate : Node)
  | logical (left right : Node)
  | jsxElem (children : NodeList)
  | exprContainer (e : Node)
  | emptyContainer
  | jsxAttr (name : String) (value : Node)
  | jsxAttrLit (name : String)
  | jsxText (s : String)
  | lit
inductive NodeList where
  | nil
  | cons (head : Node) (tail : NodeList)
end

/-- getRootIdentifier: walk down the object spine of a member chain to the
leftmost identifier, if any. -/
def getRootIdentifier : Node → Option String
  | Node.member obj _ _ =>
      match obj with
      | Node.ident n => some n
      | Node.member o c p => getRootIdentifier (Node.member o c p)
      | _ => none
  | _ => none

/-- expressionToString: identifiers print as their name, member chains with a
dot (a non-identifier property prints as a computed marker), calls print the
identifier callee or a complex marker followed by parentheses, and anything
else a generic marker. -/
def expressionToString : Node → String
  | Node.ident n => n
  | Node.member obj _ property =>
      expressionToString obj ++ "." ++
        (match property with
         | Node.ident n => n
         | _ => "[computed]")
  | Node.call callee _ =>
      (match callee with
       | Node.ident n => n
       | _ => "[complex]") ++ "()"
  | _ => "[complex-expression]"

/-! Referenced identifiers, with Babel's isReferencedIdentifier semantics:
an identifier in binding position (a parameter) or a non-computed member
property is not referenced; everything else is. -/

mutual
def referencedIdents : Node → List String
  | Node.ident n => [n]
  | Node.member obj computed property =>
      referencedIdents obj ++ (if computed then referencedIdents property else [])
  | Node.call callee args => referencedIdents callee ++ referencedIdentsList args
  | Node.arrow _ body => referencedIdents body
  | Node.funExpr _ body => referencedIdents body
  | Node.cond t c a => referencedIdents t ++ referencedIdents c ++ referencedIdents a
  | Node.logical l r => referencedIdents l ++ referencedIdents r
  | Node.jsxElem children => referencedIdentsList children
  | Node.exprContainer e => referencedIdents e
  | Node.jsxAttr _ value => referencedIdents value
  | _ => []
def referencedIdentsList : NodeList → List String
  | NodeList.nil => []
  | NodeList.cons h t => referencedIdents h ++ referencedIdentsList t
end

/-- JavaScript Set-based deduplication: keep the first occurrence of each
element, in order. -/
def dedupFirst (l : List String) : List String :=
  l.foldl (fun acc x => if acc.contains x then acc else acc ++ [x]) []

/-- extractVariablesFromFunction: referenced identifiers of the function
node's subtree, deduplicated. -/
def extractVariablesFromFunction (node : Node) : List String :=
  dedupFirst (match node with
    | Node.arrow _ body => referencedIdents body
    | Node.funExpr _ body => referencedIdents body
    | _ => [])

/-- The transient per-call state: the name-keyed prop mapping and the two
accumulating collections. -/
structure ExtractState where
  propMap : List DetectedProp
  complexExpressions : List ComplexExpression
  conditionalProps : List String

/-- analyzeJSXExpression of EnhancedCodeAnalysisService. -/
def analyzeJSXExpression (expression : Node) (st : ExtractState) : ExtractState :=
  match expression with
  | Node.ident n =>
      { st with propMap := (addProp st.propMap n PropType.primitive "any"
          [⟨UsageType.simple, n, "jsx-expression"⟩]) }
  | Node.member obj comp property =>
      match getRootIdentifier (Node.member obj comp property) with
      | some rootObject =>
          let expressionStr := expressionToString (Node.member obj comp property)
          let pm := addProp st.propMap rootObject PropType.object "any"
            [⟨UsageType.objectAccess, expressionStr, "jsx-expression"⟩]
          let ces :=
            if st.complexExpressions.any (fun ce => ce.expression == expressionStr) then
              st.complexExpressions
            else
              st.complexExpressions ++ [⟨expressionStr, [rootObject], UsageType.objectAccess, rootObject⟩]
          { st with propMap := pm, complexExpressions := ces }
      | none => st
  | Node.call callee args =>
      match callee with
      | Node.ident cname =>
          { st with propMap := (addProp st.propMap cname PropType.function "() => void"
              [⟨UsageType.functionCall, expressionToString (Node.call callee args), "jsx-expression"⟩]) }
      | Node.member o c p =>
          match getRootIdentifier (Node.member o c p) with
          | some rootObject =>
              { st with propMap := (addProp st.propMap rootObject PropType.object "any"
                  [⟨UsageType.arrayMethod, expressionToString (Node.call callee args), "jsx-expression"⟩]) }
          | none => st
      | _ => st
  | Node.arrow params body =>
      (extractVariablesFromFunction (Node.arrow params body)).foldl (fun s varName =>
        if ["e", "event", "item", "index", "key", "value"].contains varName then s
        else { s with propMap := (addProp s.propMap varName PropType.function "any"
                 [⟨UsageType.functionCall, varName, "inline-function"⟩]) }) st
  | Node.funExpr params body =>
      (extractVariablesFromFunction (Node.funExpr params body)).foldl (fun s varName =>
        if ["e", "event", "item", "index", "key", "value"].contains varName then s
        else { s with propMap := (addProp s.propMap varName PropType.function "any"
                 [⟨UsageType.functionCall, varName, "inline-function"⟩]) }) st
  | _ => st

/-- analyzeJSXAttributeExpression: a bare identifier becomes a function prop
with a function-call usage when the attribute follows the event-handler
convention, a primitive prop with a simple usage otherwise; any other
expression goes through the general analysis. -/
def analyzeJSXAttributeExpression (expression : Node) (isEventHandler : Bool)
    (st : ExtractState) : ExtractState :=
  match expression with
  | Node.ident n =>
      let t := if isEventHandler then PropType.function else PropType.primitive
      let inferredType := if isEventHandler then "() => void" else "any"
      { st with propMap := (addProp st.propMap n t inferredType
          [⟨if isEventHandler then UsageType.functionCall else UsageType.simple, n, "jsx-attribute"⟩]) }
  | e => analyzeJSXExpression e st

/-- The test step of analyzeConditionalExpression: a bare-identifier test
becomes a primitive boolean conditional usage and joins the
conditional-names collection. -/
def condTestStep (x : Node) (st : ExtractState) : ExtractState :=
  match x with
  | Node.ident n =>
      let pm := addProp st.propMap n PropType.primitive "boolean"
        [⟨UsageType.conditional, n, "conditional-test"⟩]
      { st with propMap := pm, conditionalProps := st.conditionalProps ++ [n] }
  | _ => st

/-- The branch step of analyzeConditionalExpression, applied to the
consequent and to the alternate: a bare identifier registers as unknown with
a conditional usage. -/
def condBranchStep (x : Node) (st : ExtractState) : ExtractState :=
  match x with
  | Node.ident n =>
      { st with propMap := (addProp st.propMap n PropType.unknown "any"
          [⟨UsageType.conditional, n, "conditional-branch"⟩]) }
  | _ => st

/-- analyzeConditionalExpression: the test step, then the branch step on the
consequent and on the alternate, in source order. -/
def analyzeConditionalExpression (test consequent alternate : Node)
    (st : ExtractState) : ExtractState :=
  condBranchStep alternate (condBranchStep consequent (condTestStep test st))

/-- The left-operand step of analyzeLogicalExpression, like a conditional
test. -/
def logicalLeftStep (x : Node) (st : ExtractState) : ExtractState :=
  match x with
  | Node.ident n =>
      let pm := addProp st.propMap n PropType.primitive "boolean"
        [⟨UsageType.conditional, n, "logical-expression"⟩]
      { st with propMap := pm, conditionalProps := st.conditionalProps ++ [n] }
  | _ => st

/-- The right-operand step of analyzeLogicalExpression, like a conditional
branch. -/
def logicalRightStep (x : Node) (st : ExtractState) : ExtractState :=
  match x with
  | Node.ident n =>
      { st with propMap := (addProp st.propMap n PropType.unknown "any"
          [⟨UsageType.conditional, n, "logical-expression"⟩]) }
  | _ => st

/-- analyzeLogicalExpression: the left-operand step, then the right-operand
step. -/
def analyzeLogicalExpression (left right : Node) (st : ExtractState) : ExtractState :=
  logicalRightStep right (logicalLeftStep left st)

/-- String.startsWith, computed on the character lists. -/
def strBeginsWith (s t : String) : Bool := beginsWith t.toList s.toList

/-! The traversal: handlers fire per node kind in document order, exactly the
four visitors of extractPropsFromJSX. The expression container that is an
attribute's value is itself a container node, so after the attribute visitor
the container visitor fires on the same expression. -/

mutual
def visit (st : ExtractState) : Node → ExtractState
  | Node.ident _ => st
  | Node.lit => st
  | Node.jsxText _ => st
  | Node.jsxAttrLit _ => st
  | Node.emptyContainer => st
  | Node.member obj comp property => visit (visit st obj) property
  | Node.call callee args => visitList (visit st callee) args
  | Node.arrow _ body => visit st body
  | Node.funExpr _ body => visit st body
  | Node.cond t c a =>
      let st1 := analyzeConditionalExpression t c a st
      visit (visit (visit st1 t) c) a
  | Node.logical l r =>
      let st1 := analyzeLogicalExpression l r st
      visit (visit st1 l) r
  | Node.jsxElem children => visitList st children
  | Node.exprContainer e =>
      let st1 := analyzeJSXExpression e st
      visit st1 e
  | Node.jsxAttr name value =>
      let isEventHandler := strBeginsWith name "on" && decide (2 < name.length)
      let st1 := analyzeJSXAttributeExpression value isEventHandler st
      let st2 := analyzeJSXExpression value st1
      visit st2 value
def visitList (st : ExtractState) : NodeList → ExtractState
  | NodeList.nil => st
  | NodeList.cons h t => visitList (visit st h) t
end

/-! ## The lexical fallback: fallbackPropExtraction

Three global regex passes over the raw text. Their character classes: -/

/-- The identifier start class of the fallback regexes. -/
def isIdStart (c : Char) : Bool := c.isAlpha || c = '_' || c = '$'

/-- The identifier continuation class of the fallback regexes. -/
def isIdChar (c : Char) : Bool := c.isAlpha || c.isDigit || c = '_' || c = '$'

/-- The chain continuation class of the object-access regex: identifier
characters or a dot. -/
def isIdDotChar (c : Char) : Bool := isIdChar c || c = '.'

/-- A match of the simple-variable regex at this position: an open brace, an
identifier, a close brace. -/
def matchSimpleVarAt (l : List Char) : Option String :=
  match l with
  | c0 :: c :: rest =>
      if c0 = '\x7b' ∧ isIdStart c = true then
        match rest.dropWhile isIdChar with
        | '\x7d' :: _ => some (String.mk (c :: rest.takeWhile isIdChar))
        | _ => none
      else none
  | _ => none

/-- A match of the object-access regex at this position: an open brace, a
root identifier, a dot, a chain of identifier characters and dots starting
with an identifier start, a close brace. Returns the root identifier and the
full inner text (the match with the braces stripped). -/
def matchObjectAccessAt (l : List Char) : Option (String × String) :=
  match l with
  | c0 :: c :: rest =>
      if c0 = '\x7b' ∧ isIdStart c = true then
        match rest.dropWhile isIdChar with
        | '.' :: d :: rest2 =>
            if isIdStart d = true then
              match rest2.dropWhile isIdDotChar with
              | '\x7d' :: _ =>
                  some (String.mk (c :: rest.takeWhile isIdChar),
                    String.mk ((c :: rest.takeWhile isIdChar) ++ '.' :: d :: rest2.takeWhile isIdDotChar))
              | _ => none
            else none
        | _ => none
      else none
  | _ => none

/-- A match of the zero-argument call regex at this position: an open brace,
an identifier, an open and close parenthesis, a close brace. -/
def matchFunctionCallAt (l : List Char) : Option String :=
  match l with
  | c0 :: c :: rest =>
      if c0 = '\x7b' ∧ isIdStart c = true then
        match rest.dropWhile isIdChar with
        | '(' :: ')' :: '\x7d' :: _ => some (String.mk (c :: rest.takeWhile isIdChar))
        | _ => none
      else none
  | _ => none

/-- All matches of a position matcher over the text, left to right. Each of
the three fallback patterns starts with an open brace and contains no other
open brace, so matches never overlap and this equals the JavaScript global
exec loop. -/
def scanPositions {α : Type} (f : List Char → Option α) : List Char → List α
  | [] => []
  | c :: cs =>
      match f (c :: cs) with
      | some a => a :: scanPositions f cs
      | none => scanPositions f cs

/-- fallbackPropExtraction: the three passes in source order, each
registering its matches through addProp into the shared prop mapping. -/
def fallbackPropExtraction (jsxCode : String) (propMap : List DetectedProp) :
    List DetectedProp :=
  let cs := jsxCode.toList
  let m1 := (scanPositions matchSimpleVarAt cs).foldl
      (fun m name => addProp m name PropType.unknown "any"
        [⟨UsageType.simple, name, "regex-fallback"⟩]) propMap
  let m2 := (scanPositions matchObjectAccessAt cs).foldl
      (fun m ri => addProp m ri.1 PropType.object "any"
        [⟨UsageType.objectAccess, ri.2, "regex-fallback"⟩]) m1
  (scanPositions matchFunctionCallAt cs).foldl
      (fun m name => addProp m name PropType.function "() => void"
        [⟨UsageType.functionCall, name ++ "()", "regex-fallback"⟩]) m2

/-! ## Complexity scoring and the extraction entry point -/

/-- The per-usage weights of calculateComplexity. -/
def usageWeight : UsageType → Nat
  | UsageType.simple => 1
  | UsageType.objectAccess => 2
  | UsageType.functionCall => 2
  | UsageType.conditional => 3
  | UsageType.arrayMethod => 3

/-- calculateComplexity: base is the number of props, plus the weight of
every usage record of every prop, plus two per complex expression. -/
def calculateComplexity (props : List DetectedProp)
    (complexExpressions : List ComplexExpression) : Nat :=
  props.length
    + (props.map fun p => (p.usage.map fun u => usageWeight u.type).sum).sum
    + complexExpressions.length * 2

/-- The outcome of the Babel parse, modelled as a result kind: the parse
either yields the AST that traverse walks, or fails (a fragment that is not
self-contained), which in the source raises and is caught. -/
inductive ParseResult where
  | success (ast : NodeList)
  | failure

/-- extractPropsFromJSX: on a successful parse, traverse the AST with the
four visitors; on a parse failure, run the regex fallback on the raw text
against the (still empty) prop mapping. Either way the result carries the
accumulated collections and the computed complexity. -/
def extractPropsFromJSX (parsed : ParseResult) (jsxCode : String) : PropAnalysis :=
  match parsed with
  | ParseResult.success ast =>
      let st := visitList ⟨[], [], []⟩ ast
      { props := st.propMap
        complexExpressions := st.complexExpressions
        conditionalProps := st.conditionalProps
        totalComplexity := calculateComplexity st.propMap st.complexExpressions }
  | ParseResult.failure =>
      let pm := fallbackPropExtraction jsxCode []
      { props := pm
        complexExpressions := []
        conditionalProps := []
        totalComplexity := calculateComplexity pm [] }

/-! ## Auxiliary definitions for the statements -/

/-- One registration request into the prop mapping, as addProp receives it. -/
structure RegCall where
  name : String
  type : PropType
  inferredType : String
  usage : List PropUsage

/-- Apply one registration request. -/
def applyReg (m : List DetectedProp) (r : RegCall) : List DetectedProp :=
  addProp m r.name r.type r.inferredType r.usage

/-- Two usage records with the same expression text and the same usage kind. -/
def samePair (a b : PropUsage) : Prop :=
  a.expression = b.expression ∧ a.type = b.type

/-- The per-pass state invariant: prop names are pairwise distinct and so are
the complex-expression texts. -/
def GoodState (st : ExtractState) : Prop :=
  ((st.propMap.map fun p => p.name).Nodup)
    ∧ ((st.complexExpressions.map fun ce => ce.expression).Nodup)

/-- The event-handler naming convention as the spec words it: the attribute
name is "on" followed by a capitalized word. Stated only to compare the
spec's convention with the one the code checks. -/
def specOnCapitalizedConvention (name : String) : Bool :=
  match name.toList with
  | 'o' :: 'n' :: c :: _ => c.isUpper
  | _ => false

/-- A non-computed member access, the common case. -/
def memberN (o : Node) (field : String) : Node :=
  Node.member o false (Node.ident field)

/-- The markup of the user-chains test fragment: expression containers for
user.name and user.profile.email, then attribute values user.avatar and
user.name, in document order. -/
def userChainsDoc : NodeList :=
  NodeList.cons (Node.exprContainer (memberN (Node.ident "user") "name"))
  (NodeList.cons (Node.exprContainer (memberN (memberN (Node.ident "user") "profile") "email"))
  (NodeList.cons (Node.jsxAttr "src" (memberN (Node.ident "user") "avatar"))
  (NodeList.cons (Node.jsxAttr "alt" (memberN (Node.ident "user") "name")) NodeList.nil)))

/-- A nonempty string of identifier characters starting with an identifier
start: exactly what the capture group of the fallback regexes matches. -/
def isValidIdent (s : String) : Bool :=
  match s.toList with
  | [] => false
  | c :: cs => isIdStart c && cs.all isIdChar

/-- A nonempty chain rest: an identifier start followed by identifier
characters and dots, as after the first dot of the object-access regex. -/
def isValidChainRest (s : String) : Bool :=
  match s.toList with
  | [] => false
  | c :: cs => isIdStart c && cs.all isIdDotChar

/-! ## Theorems -/

/-- C1: for every pair of summed scores, the classification engine's analyze
operation decides the category in the fixed order: markup score exceeding the
hook score and positive gives component with confidence min(markup / 5, 1);
otherwise a positive hook score gives hook with confidence min(hook / 3, 1);
otherwise unknown with confidence exactly 0. -/
theorem analyzeCode_decision_order (ms hs : ℚ) :
    (ms > hs ∧ ms > 0 →
      analyzeCategoryDecision ms hs = (ExportType.component, min (ms / 5) 1))
  ∧ (¬(ms > hs ∧ ms > 0) → hs > 0 →
      analyzeCategoryDecision ms hs = (ExportType.hook, min (hs / 3) 1))
  ∧ (¬(ms > hs ∧ ms > 0) → ¬(hs > 0) →
      analyzeCategoryDecision ms hs = (ExportType.unknown, 0)) := by
  refine ⟨fun h => ?_, fun h1 h2 => ?_, fun h1 h2 => ?_⟩ <;>
    simp [analyzeCategoryDecision, *]

/-- Witness for C1 at concrete scores. -/
theorem analyzeCode_decision_order_witness :
    analyzeCategoryDecision 4 0 = (ExportType.component, min ((4 : ℚ) / 5) 1)
  ∧ analyzeCategoryDecision 1 3 = (ExportType.hook, min ((3 : ℚ) / 3) 1)
  ∧ analyzeCategoryDecision 0 0 = (ExportType.unknown, 0) :=
  ⟨(analyzeCode_decision_order 4 0).1 (by norm_num),
   (analyzeCode_decision_order 1 3).2.1 (by norm_num) (by norm_num),
   (analyzeCode_decision_order 0 0).2.2 (by norm_num) (by norm_num)⟩

/-- C2: the legacy detector returns component whenever any of the three
markup regexes matches (paired tags, self-closing element, capitalized tag),
regardless of hook presence; hook when no markup form matches but one of the
ten built-in hook primitives occurs as a delimited word; unknown when neither
matches. -/
theorem detectExportType_priority (code : String) :
    ((existsSuffix pairedAt code.toList || existsSuffix selfClosingAt code.toList
        || existsSuffix capitalizedAt code.toList) = true →
      detectExportType code = ExportType.component)
  ∧ (hasJSX code = false → hasHooks code = true →
      detectExportType code = ExportType.hook)
  ∧ (hasJSX code = false → hasHooks code = false →
      detectExportType code = ExportType.unknown) := by
  refine ⟨fun h => ?_, fun h1 h2 => ?_, fun h1 h2 => ?_⟩
  · have hj : hasJSX code = true := h
    simp [detectExportType, hj]
  · simp [detectExportType, h1, h2]
  · simp [detectExportType, h1, h2]

/-- Witness for C2 on three concrete fragments, the first containing both
markup and a hook call. -/
theorem detectExportType_priority_witness :
    detectExportType "<b/> useState(0)" = ExportType.component
  ∧ detectExportType "useState(0)" = ExportType.hook
  ∧ detectExportType "const x = 5" = ExportType.unknown :=
  ⟨(detectExportType_priority "<b/> useState(0)").1 (by decide),
   (detectExportType_priority "useState(0)").2.1 (by decide) (by decide),
   (detectExportType_priority "const x = 5").2.2 (by decide) (by decide)⟩

/-- C3: the dependency extractor is a total function: for every parse outcome
and every raw text it returns a structurally valid analysis whose complexity
is the computed score of its own props and complex expressions, and on a
parse failure it silently switches to the lexical fallback. -/
theorem extractPropsFromJSX_never_fails (pr : ParseResult) (s : String) :
    (extractPropsFromJSX pr s).totalComplexity
      = calculateComplexity (extractPropsFromJSX pr s).props
          (extractPropsFromJSX pr s).complexExpressions
  ∧ (pr = ParseResult.failure →
      (extractPropsFromJSX pr s).props = fallbackPropExtraction s []) := by
  cases pr <;> simp [extractPropsFromJSX]

/-- Witness for C3 at a failed parse of a concrete malformed fragment. -/
theorem extractPropsFromJSX_never_fails_witness :
    (extractPropsFromJSX ParseResult.failure "<div>\x7bx\x7d").props
      = fallbackPropExtraction "<div>\x7bx\x7d" [] :=
  (extractPropsFromJSX_never_fails ParseResult.failure "<div>\x7bx\x7d").2 rfl

/-- C6: on the fragment whose markup references exactly the chains user.name,
user.profile.email and user.avatar, extraction returns exactly one prop named
user of type object with three deduplicated object-access usages, and exactly
three distinct complex expressions. -/
theorem user_chains_extraction :
    extractPropsFromJSX (ParseResult.success userChainsDoc) "" =
      ⟨[⟨"user", PropType.object, "any", true, none,
          [⟨UsageType.objectAccess, "user.name", "jsx-expression"⟩,
           ⟨UsageType.objectAccess, "user.profile.email", "jsx-expression"⟩,
           ⟨UsageType.objectAccess, "user.avatar", "jsx-expression"⟩]⟩],
        [⟨"user.name", ["user"], UsageType.objectAccess, "user"⟩,
         ⟨"user.profile.email", ["user"], UsageType.objectAccess, "user"⟩,
         ⟨"user.avatar", ["user"], UsageType.objectAccess, "user"⟩],
        [], 13⟩ := by
  decide

/-- C7 counterexample: the attribute name "once" does not match the spec's
convention of "on" followed by a capitalized word, yet the code registers its
bare-identifier value as a function prop with a function-call usage, not as a
primitive prop with a simple usage as the claim states. -/
theorem event_attr_convention_counterexample :
    specOnCapitalizedConvention "once" = false
  ∧ (extractPropsFromJSX (ParseResult.success
        (NodeList.cons (Node.jsxAttr "once" (Node.ident "handler")) NodeList.nil)) "").props
      = [⟨"handler", PropType.function, "() => void", true, none,
          [⟨UsageType.functionCall, "handler", "jsx-attribute"⟩,
           ⟨UsageType.simple, "handler", "jsx-expression"⟩]⟩]
  ∧ PropType.function ≠ PropType.primitive := by
  decide

/-- C7 amended: the convention the code checks is that the attribute name
starts with "on" and is longer than two characters, with no capitalization
requirement; under it a bare identifier value registers as a function prop
with inferred type "() => void" and a function-call usage, and otherwise as a
primitive prop with a simple usage. -/
theorem attr_identifier_registration (a n : String) :
    ((strBeginsWith a "on" && decide (2 < a.length)) = true →
      (extractPropsFromJSX (ParseResult.success
          (NodeList.cons (Node.jsxAttr a (Node.ident n)) NodeList.nil)) "").props
        = [⟨n, PropType.function, "() => void", true, none,
            [⟨UsageType.functionCall, n, "jsx-attribute"⟩,
             ⟨UsageType.simple, n, "jsx-expression"⟩]⟩])
  ∧ ((strBeginsWith a "on" && decide (2 < a.length)) = false →
      (extractPropsFromJSX (ParseResult.success
          (NodeList.cons (Node.jsxAttr a (Node.ident n)) NodeList.nil)) "").props
        = [⟨n, PropType.primitive, "any", true, none,
            [⟨UsageType.simple, n, "jsx-attribute"⟩]⟩]) := by
  constructor <;> intro h <;>
    simp [extractPropsFromJSX, visitList, visit, h, analyzeJSXAttributeExpression,
      analyzeJSXExpression, addProp, hasName, dedupAppend, usageMatches]

/-- Witness for C7's amended theorem at an event attribute and at a plain
attribute. -/
theorem attr_identifier_registration_witness :
    (extractPropsFromJSX (ParseResult.success
        (NodeList.cons (Node.jsxAttr "onClick" (Node.ident "handleClick")) NodeList.nil)) "").props
      = [⟨"handleClick", PropType.function, "() => void", true, none,
          [⟨UsageType.functionCall, "handleClick", "jsx-attribute"⟩,
           ⟨UsageType.simple, "handleClick", "jsx-expression"⟩]⟩]
  ∧ (extractPropsFromJSX (ParseResult.success
        (NodeList.cons (Node.jsxAttr "title" (Node.ident "caption")) NodeList.nil)) "").props
      = [⟨"caption", PropType.primitive, "any", true, none,
          [⟨UsageType.simple, "caption", "jsx-attribute"⟩]⟩] :=
  ⟨(attr_identifier_registration "onClick" "handleClick").1 (by decide),
   (attr_identifier_registration "title" "caption").2 (by decide)⟩

/-- C10: whenever the extractor takes the lexical fallback path, the result's
complex-expression and conditional-name collections are empty and the
complexity is computed from the fallback-registered props alone. -/
theorem fallback_mode_result (s : String) :
    extractPropsFromJSX ParseResult.failure s
      = { props := fallbackPropExtraction s []
          complexExpressions := []
          conditionalProps := []
          totalComplexity := calculateComplexity (fallbackPropExtraction s []) [] } :=
  rfl

/-! ### The merge rule of addProp -/

theorem usageMatches_eq_true_iff (a b : PropUsage) :
    usageMatches a b = true ↔ samePair a b := by
  simp [usageMatches, samePair]

theorem dedupAppend_spec (us : List PropUsage) :
    ∀ existing : List PropUsage, ∃ tail,
      dedupAppend existing us = existing ++ tail
      ∧ (∀ u ∈ tail, u ∈ us ∧ ∀ v ∈ existing, ¬ samePair v u)
      ∧ tail.Pairwise (fun x y => ¬ samePair x y) := by
  induction us with
  | nil =>
      intro existing
      exact ⟨[], by simp [dedupAppend], by simp, List.Pairwise.nil⟩
  | cons u us ih =>
      intro existing
      by_cases h : existing.any (fun e => usageMatches e u) = true
      · obtain ⟨tail, h1, h2, h3⟩ := ih existing
        refine ⟨tail, by simpa [dedupAppend, h] using h1, ?_, h3⟩
        intro w hw
        obtain ⟨hw1, hw2⟩ := h2 w hw
        exact ⟨List.mem_cons_of_mem _ hw1, hw2⟩
      · obtain ⟨tail, h1, h2, h3⟩ := ih (existing ++ [u])
        have hnot : ∀ v ∈ existing, ¬ samePair v u := by
          intro v hv hs
          exact h (List.any_eq_true.mpr ⟨v, hv, (usageMatches_eq_true_iff v u).mpr hs⟩)
        have hstep : dedupAppend existing (u :: us) = dedupAppend (existing ++ [u]) us := by
          simp [dedupAppend, h]
        refine ⟨u :: tail, ?_, ?_, ?_⟩
        · rw [hstep, h1, List.append_assoc]
          rfl
        · intro w hw
          rcases List.mem_cons.mp hw with rfl | hw
          · exact ⟨List.mem_cons_self _ _, hnot⟩
          · obtain ⟨hw1, hw2⟩ := h2 w hw
            refine ⟨List.mem_cons_of_mem _ hw1, fun v hv => hw2 v ?_⟩
            exact List.mem_append_left _ hv
        · refine List.Pairwise.cons (fun w hw => ?_) h3
          obtain ⟨_, hw2⟩ := h2 w hw
          exact hw2 u (List.mem_append_right _ (List.mem_cons_self _ _))

theorem lookupProp_hasName {m : List DetectedProp} {n : String} {p : DetectedProp}
    (h : lookupProp m n = some p) : hasName m n = true := by
  induction m with
  | nil => simp [lookupProp] at h
  | cons q ps ih =>
      by_cases hq : q.name = n
      · simp [hasName, hq]
      · rw [lookupProp, if_neg hq] at h
        have := ih h
        simp only [hasName, List.any_cons] at this ⊢
        simp [this]

theorem lookupProp_map_update (m : List DetectedProp) (n : String)
    (f : DetectedProp → DetectedProp) (hf : ∀ p, (f p).name = p.name)
    (p : DetectedProp) (h : lookupProp m n = some p) :
    lookupProp (m.map fun q => if q.name = n then f q else q) n = some (f p) := by
  induction m with
  | nil => simp [lookupProp] at h
  | cons q ps ih =>
      by_cases hq : q.name = n
      · rw [lookupProp, if_pos hq] at h
        rw [List.map_cons, if_pos hq, lookupProp, if_pos (by rw [hf, hq])]
        rw [Option.some.injEq] at h
        rw [h]
      · rw [lookupProp, if_neg hq] at h
        rw [List.map_cons, if_neg hq, lookupProp, if_neg hq]
        exact ih h

theorem addProp_lookup_existing (m : List DetectedProp) (n : String) (t : PropType)
    (it : String) (us : List PropUsage) (p : DetectedProp)
    (h : lookupProp m n = some p) :
    lookupProp (addProp m n t it us) n = some
      (if p.type = PropType.unknown ∧ t ≠ PropType.unknown then
        { p with type := t, inferredType := it, usage := dedupAppend p.usage us }
      else { p with usage := dedupAppend p.usage us }) := by
  have hh : hasName m n = true := lookupProp_hasName h
  unfold addProp
  rw [if_pos hh]
  have := lookupProp_map_update m n
    (fun q =>
      if q.type = PropType.unknown ∧ t ≠ PropType.unknown then
        { q with type := t, inferredType := it, usage := dedupAppend q.usage us }
      else { q with usage := dedupAppend q.usage us })
    (by intro q; dsimp only; split <;> rfl) p h
  simpa using this

theorem propNames_addProp (m : List DetectedProp) (n : String) (t : PropType)
    (it : String) (us : List PropUsage) :
    (addProp m n t it us).map (fun p => p.name)
      = if hasName m n then m.map (fun p => p.name)
        else m.map (fun p => p.name) ++ [n] := by
  unfold addProp
  split
  · rw [List.map_map]
    refine List.map_congr_left fun p _ => ?_
    dsimp only [Function.comp]
    split
    · split <;> rfl
    · rfl
  · simp

theorem hasName_false_not_mem {m : List DetectedProp} {n : String}
    (h : hasName m n = false) : n ∉ m.map fun p => p.name := by
  simp only [hasName, List.any_eq_false, beq_iff_eq] at h
  simp only [List.mem_map]
  rintro ⟨p, hp, hname⟩
  exact h p hp hname

theorem addProp_names_nodup {m : List DetectedProp}
    (hm : (m.map fun p => p.name).Nodup) (n : String) (t : PropType)
    (it : String) (us : List PropUsage) :
    ((addProp m n t it us).map fun p => p.name).Nodup := by
  rw [propNames_addProp]
  split
  · exact hm
  · rename_i hfalse
    have hne : hasName m n = false := by
      revert hfalse
      cases hasName m n <;> simp
    have hnot := hasName_false_not_mem hne
    rw [List.nodup_append]
    exact ⟨hm, List.nodup_singleton n, fun a ha hb => by
      simp only [List.mem_singleton] at hb
      exact hnot (hb ▸ ha)⟩

theorem foldl_preserves {α β : Type _} (P : α → Prop) (f : α → β → α)
    (hstep : ∀ a b, P a → P (f a b)) :
    ∀ (l : List β) (a : α), P a → P (l.foldl f a) := by
  intro l
  induction l with
  | nil => intro a h; simpa using h
  | cons b bs ih =>
      intro a h
      rw [List.foldl_cons]
      exact ih _ (hstep a b h)

/-- C4: over any sequence of registrations the prop names stay pairwise
distinct, and a re-registration of an existing name appends only usage
records whose exact expression-and-kind pair is absent (from the stored list
and from the records appended before them), while the stored type changes
only from unknown to a specific type and is otherwise left untouched. -/
theorem registration_invariants :
    (∀ regs : List RegCall, ((regs.foldl applyReg []).map fun p => p.name).Nodup)
  ∧ (∀ (m : List DetectedProp) (n : String) (t : PropType) (it : String)
        (us : List PropUsage) (p : DetectedProp),
      lookupProp m n = some p →
      ∃ q tail, lookupProp (addProp m n t it us) n = some q
        ∧ q.usage = p.usage ++ tail
        ∧ (∀ u ∈ tail, u ∈ us ∧ ∀ v ∈ p.usage, ¬ samePair v u)
        ∧ tail.Pairwise (fun x y => ¬ samePair x y)
        ∧ q.type = (if p.type = PropType.unknown ∧ t ≠ PropType.unknown then t
            else p.type)) := by
  constructor
  · intro regs
    have hstep : ∀ (a : List DetectedProp) (r : RegCall),
        ((a.map fun p => p.name)).Nodup → (((applyReg a r).map fun p => p.name)).Nodup :=
      fun a r ha => addProp_names_nodup ha r.name r.type r.inferredType r.usage
    exact foldl_preserves _ applyReg hstep regs [] (by simp)
  · intro m n t it us p h
    obtain ⟨tail, ht1, ht2, ht3⟩ := dedupAppend_spec us p.usage
    refine ⟨_, tail, addProp_lookup_existing m n t it us p h, ?_, ht2, ht3, ?_⟩
    · split <;> exact ht1
    · by_cases hc : p.type = PropType.unknown ∧ t ≠ PropType.unknown <;> simp [hc]

/-- Witness for C4 at a concrete re-registration: the duplicate usage record
is dropped, the new pair is appended, and the unknown type upgrades. -/
theorem registration_invariants_witness :
    lookupProp [⟨"a", PropType.unknown, "any", true, none,
        [⟨UsageType.simple, "a", "c"⟩]⟩] "a"
      = some ⟨"a", PropType.unknown, "any", true, none, [⟨UsageType.simple, "a", "c"⟩]⟩
  ∧ ∃ q tail,
      lookupProp (addProp [⟨"a", PropType.unknown, "any", true, none,
          [⟨UsageType.simple, "a", "c"⟩]⟩] "a" PropType.object "any"
          [⟨UsageType.simple, "a", "c"⟩, ⟨UsageType.objectAccess, "a.b", "c"⟩]) "a" = some q
      ∧ q.usage = [⟨UsageType.simple, "a", "c"⟩] ++ tail
      ∧ (∀ u ∈ tail, u ∈ [(⟨UsageType.simple, "a", "c"⟩ : PropUsage),
            ⟨UsageType.objectAccess, "a.b", "c"⟩]
          ∧ ∀ v ∈ [(⟨UsageType.simple, "a", "c"⟩ : PropUsage)], ¬ samePair v u)
      ∧ tail.Pairwise (fun x y => ¬ samePair x y)
      ∧ q.type = (if PropType.unknown = PropType.unknown ∧ PropType.object ≠ PropType.unknown
          then PropType.object else PropType.unknown) :=
  ⟨by decide,
   registration_invariants.2
     [⟨"a", PropType.unknown, "any", true, none, [⟨UsageType.simple, "a", "c"⟩]⟩]
     "a" PropType.object "any"
     [⟨UsageType.simple, "a", "c"⟩, ⟨UsageType.objectAccess, "a.b", "c"⟩]
     ⟨"a", PropType.unknown, "any", true, none, [⟨UsageType.simple, "a", "c"⟩]⟩
     (by decide)⟩

/-- C9: once a prop's stored type is anything other than unknown, a later
registration of the same name changes neither the type nor the inferred-type
annotation, whatever specific type the new evidence carries; only the usage
list can grow. -/
theorem specific_type_stable (m : List DetectedProp) (n : String) (t : PropType)
    (it : String) (us : List PropUsage) (p : DetectedProp)
    (h : lookupProp m n = some p) (ht : p.type ≠ PropType.unknown) :
    ∃ q, lookupProp (addProp m n t it us) n = some q
      ∧ q.type = p.type ∧ q.inferredType = p.inferredType
      ∧ ∃ tail, q.usage = p.usage ++ tail := by
  obtain ⟨tail, ht1, -, -⟩ := dedupAppend_spec us p.usage
  have hcond : ¬(p.type = PropType.unknown ∧ t ≠ PropType.unknown) := fun hc => ht hc.1
  refine ⟨_, addProp_lookup_existing m n t it us p h, ?_, ?_, tail, ?_⟩ <;>
    simp [hcond, ht1]

/-- Witness for C9: object evidence followed by function evidence leaves the
type object and the annotation unchanged. -/
theorem specific_type_stable_witness :
    lookupProp [⟨"user", PropType.object, "any", true, none,
        [⟨UsageType.objectAccess, "user.name", "jsx-expression"⟩]⟩] "user"
      = some ⟨"user", PropType.object, "any", true, none,
          [⟨UsageType.objectAccess, "user.name", "jsx-expression"⟩]⟩
  ∧ PropType.object ≠ PropType.unknown
  ∧ ∃ q, lookupProp (addProp [⟨"user", PropType.object, "any", true, none,
          [⟨UsageType.objectAccess, "user.name", "jsx-expression"⟩]⟩] "user"
          PropType.function "() => void"
          [⟨UsageType.functionCall, "user", "inline-function"⟩]) "user" = some q
      ∧ q.type = PropType.object ∧ q.inferredType = "any"
      ∧ ∃ tail, q.usage = [⟨UsageType.objectAccess, "user.name", "jsx-expression"⟩] ++ tail :=
  ⟨by decide, by decide,
   specific_type_stable
     [⟨"user", PropType.object, "any", true, none,
        [⟨UsageType.objectAccess, "user.name", "jsx-expression"⟩]⟩]
     "user" PropType.function "() => void"
     [⟨UsageType.functionCall, "user", "inline-function"⟩]
     ⟨"user", PropType.object, "any", true, none,
        [⟨UsageType.objectAccess, "user.name", "jsx-expression"⟩]⟩
     (by decide) (by decide)⟩

/-! ### Distinctness is preserved through the traversal -/

theorem bool_eq_false {b : Bool} (h : ¬ b = true) : b = false := by
  cases b
  · rfl
  · exact absurd rfl h

theorem ce_append_nodup {ces : List ComplexExpression} (c : ComplexExpression)
    (h : (ces.map fun ce => ce.expression).Nodup)
    (hany : (ces.any fun ce => ce.expression == c.expression) = false) :
    ((ces ++ [c]).map fun ce => ce.expression).Nodup := by
  rw [List.map_append, List.nodup_append]
  refine ⟨h, by simp, ?_⟩
  intro a ha hb
  simp only [List.map_cons, List.map_nil, List.mem_singleton] at hb
  subst hb
  simp only [List.any_eq_false, beq_iff_eq] at hany
  simp only [List.mem_map] at ha
  obtain ⟨ce, hce, he⟩ := ha
  exact hany ce hce he

theorem good_propMap_update {st : ExtractState} (h : GoodState st)
    (n : String) (t : PropType) (it : String) (us : List PropUsage) :
    GoodState ⟨addProp st.propMap n t it us, st.complexExpressions, st.conditionalProps⟩ :=
  ⟨addProp_names_nodup h.1 n t it us, h.2⟩

theorem good_propMap_cps_update {st : ExtractState} (h : GoodState st)
    (n : String) (t : PropType) (it : String) (us : List PropUsage)
    (cps : List String) :
    GoodState ⟨addProp st.propMap n t it us, st.complexExpressions, cps⟩ :=
  ⟨addProp_names_nodup h.1 n t it us, h.2⟩

theorem condTestStep_good (x : Node) {st : ExtractState} (h : GoodState st) :
    GoodState (condTestStep x st) := by
  cases x <;> first
    | exact good_propMap_cps_update h _ _ _ _ _
    | exact h

theorem condBranchStep_good (x : Node) {st : ExtractState} (h : GoodState st) :
    GoodState (condBranchStep x st) := by
  cases x <;> first
    | exact good_propMap_update h _ _ _ _
    | exact h

theorem logicalLeftStep_good (x : Node) {st : ExtractState} (h : GoodState st) :
    GoodState (logicalLeftStep x st) := by
  cases x <;> first
    | exact good_propMap_cps_update h _ _ _ _ _
    | exact h

theorem logicalRightStep_good (x : Node) {st : ExtractState} (h : GoodState st) :
    GoodState (logicalRightStep x st) := by
  cases x <;> first
    | exact good_propMap_update h _ _ _ _
    | exact h

theorem analyzeConditionalExpression_good (t c a : Node) {st : ExtractState}
    (h : GoodState st) : GoodState (analyzeConditionalExpression t c a st) :=
  condBranchStep_good a (condBranchStep_good c (condTestStep_good t h))

theorem analyzeLogicalExpression_good (l r : Node) {st : ExtractState}
    (h : GoodState st) : GoodState (analyzeLogicalExpression l r st) :=
  logicalRightStep_good r (logicalLeftStep_good l h)

theorem analyzeJSXExpression_good (e : Node) {st : ExtractState} (h : GoodState st) :
    GoodState (analyzeJSXExpression e st) := by
  cases e with
  | ident n => exact good_propMap_update h n _ _ _
  | member obj comp property =>
      simp only [analyzeJSXExpression]
      cases hr : getRootIdentifier (Node.member obj comp property) with
      | none => exact h
      | some root =>
          refine ⟨addProp_names_nodup h.1 _ _ _ _, ?_⟩
          dsimp only
          split
          · exact h.2
          · next hfalse =>
              exact ce_append_nodup
                ⟨expressionToString (Node.member obj comp property), [root],
                  UsageType.objectAccess, root⟩
                h.2 (bool_eq_false hfalse)
  | call callee args =>
      cases callee with
      | ident cname => exact good_propMap_update h cname _ _ _
      | member o c p =>
          simp only [analyzeJSXExpression]
          cases hr : getRootIdentifier (Node.member o c p) with
          | none => exact h
          | some root => exact good_propMap_update h root _ _ _
      | _ => exact h
  | arrow params body =>
      simp only [analyzeJSXExpression]
      refine foldl_preserves GoodState _ (fun s v hs => ?_) _ st h
      dsimp only
      split
      · exact hs
      · exact good_propMap_update hs v _ _ _
  | funExpr params body =>
      simp only [analyzeJSXExpression]
      refine foldl_preserves GoodState _ (fun s v hs => ?_) _ st h
      dsimp only
      split
      · exact hs
      · exact good_propMap_update hs v _ _ _
  | _ => exact h

theorem analyzeJSXAttributeExpression_good (e : Node) (b : Bool) {st : ExtractState}
    (h : GoodState st) : GoodState (analyzeJSXAttributeExpression e b st) := by
  cases e <;> first
    | exact good_propMap_update h _ _ _ _
    | exact analyzeJSXExpression_good _ h

mutual
theorem visit_good : ∀ (n : Node) (st : ExtractState),
    GoodState st → GoodState (visit st n)
  | Node.ident _, _, h => h
  | Node.lit, _, h => h
  | Node.jsxText _, _, h => h
  | Node.jsxAttrLit _, _, h => h
  | Node.emptyContainer, _, h => h
  | Node.member obj _ property, _, h => visit_good property _ (visit_good obj _ h)
  | Node.call callee args, _, h => visitList_good args _ (visit_good callee _ h)
  | Node.arrow _ body, _, h => visit_good body _ h
  | Node.funExpr _ body, _, h => visit_good body _ h
  | Node.cond t c a, st, h =>
      visit_good a _ (visit_good c _ (visit_good t _
        (analyzeConditionalExpression_good t c a h)))
  | Node.logical l r, st, h =>
      visit_good r _ (visit_good l _ (analyzeLogicalExpression_good l r h))
  | Node.jsxElem children, _, h => visitList_good children _ h
  | Node.exprContainer e, st, h => visit_good e _ (analyzeJSXExpression_good e h)
  | Node.jsxAttr name value, st, h =>
      visit_good value _ (analyzeJSXExpression_good value
        (analyzeJSXAttributeExpression_good value _ h))
theorem visitList_good : ∀ (l : NodeList) (st : ExtractState),
    GoodState st → GoodState (visitList st l)
  | NodeList.nil, _, h => h
  | NodeList.cons hd tl, st, h => visitList_good tl _ (visit_good hd _ h)
end

theorem fallbackPropExtraction_names_nodup (s : String) :
    ((fallbackPropExtraction s []).map fun p => p.name).Nodup := by
  unfold fallbackPropExtraction
  refine foldl_preserves (fun m : List DetectedProp => ((m.map fun p => p.name)).Nodup) _
    (fun a b ha => addProp_names_nodup ha _ _ _ _) _ _ ?_
  refine foldl_preserves (fun m : List DetectedProp => ((m.map fun p => p.name)).Nodup) _
    (fun a b ha => addProp_names_nodup ha _ _ _ _) _ _ ?_
  refine foldl_preserves (fun m : List DetectedProp => ((m.map fun p => p.name)).Nodup) _
    (fun a b ha => addProp_names_nodup ha _ _ _ _) _ _ ?_
  simp

/-- C5: every extraction result's complexity equals the number of (pairwise
distinct) registered props, plus the weight of every usage record of every
prop (one for simple, two for object access or function call, three for
conditional or array method), plus two for every (pairwise distinct) complex
expression. -/
theorem totalComplexity_formula (pr : ParseResult) (s : String) :
    (extractPropsFromJSX pr s).totalComplexity
      = (extractPropsFromJSX pr s).props.length
        + ((extractPropsFromJSX pr s).props.map fun p =>
            (p.usage.map fun u => usageWeight u.type).sum).sum
        + 2 * (extractPropsFromJSX pr s).complexExpressions.length
  ∧ ((extractPropsFromJSX pr s).props.map fun p => p.name).Nodup
  ∧ ((extractPropsFromJSX pr s).complexExpressions.map fun ce => ce.expression).Nodup := by
  cases pr with
  | success ast =>
      have hg : GoodState (visitList ⟨[], [], []⟩ ast) :=
        visitList_good ast ⟨[], [], []⟩ ⟨by simp, by simp⟩
      refine ⟨?_, hg.1, hg.2⟩
      simp only [extractPropsFromJSX, calculateComplexity]
      omega
  | failure =>
      refine ⟨?_, fallbackPropExtraction_names_nodup s, by simp [extractPropsFromJSX]⟩
      simp only [extractPropsFromJSX, calculateComplexity]
      omega

/-! ### The three passes of the lexical fallback -/

theorem takeWhile_append_all {p : Char → Bool} :
    ∀ (l r : List Char), (∀ c ∈ l, p c = true) →
      (l ++ r).takeWhile p = l ++ r.takeWhile p := by
  intro l r h
  induction l with
  | nil => simp
  | cons c cs ih =>
      have hc : p c = true := h c (List.mem_cons_self c cs)
      simp only [List.cons_append, List.takeWhile_cons, hc, if_true]
      rw [ih (fun x hx => h x (List.mem_cons_of_mem _ hx))]

theorem dropWhile_append_all {p : Char → Bool} :
    ∀ (l r : List Char), (∀ c ∈ l, p c = true) →
      (l ++ r).dropWhile p = r.dropWhile p := by
  intro l r h
  induction l with
  | nil => simp
  | cons c cs ih =>
      have hc : p c = true := h c (List.mem_cons_self c cs)
      simp only [List.cons_append, List.dropWhile_cons, hc, if_true]
      exact ih (fun x hx => h x (List.mem_cons_of_mem _ hx))

theorem isIdStart_ne_brace {c : Char} (h : isIdStart c = true) : c ≠ '\x7b' := by
  intro he
  subst he
  exact absurd h (by decide)

theorem isIdChar_ne_brace {c : Char} (h : isIdChar c = true) : c ≠ '\x7b' := by
  intro he
  subst he
  exact absurd h (by decide)

theorem isIdDotChar_ne_brace {c : Char} (h : isIdDotChar c = true) : c ≠ '\x7b' := by
  intro he
  subst he
  exact absurd h (by decide)

theorem matchSimpleVarAt_not_brace {c : Char} (t : List Char) (h : c ≠ '\x7b') :
    matchSimpleVarAt (c :: t) = none := by
  cases t with
  | nil => rfl
  | cons c1 r => simp [matchSimpleVarAt, h]

theorem matchObjectAccessAt_not_brace {c : Char} (t : List Char) (h : c ≠ '\x7b') :
    matchObjectAccessAt (c :: t) = none := by
  cases t with
  | nil => rfl
  | cons c1 r => simp [matchObjectAccessAt, h]

theorem matchFunctionCallAt_not_brace {c : Char} (t : List Char) (h : c ≠ '\x7b') :
    matchFunctionCallAt (c :: t) = none := by
  cases t with
  | nil => rfl
  | cons c1 r => simp [matchFunctionCallAt, h]

theorem scanPositions_cons_none {α : Type} (f : List Char → Option α) (c : Char)
    (t : List Char) (h : f (c :: t) = none) :
    scanPositions f (c :: t) = scanPositions f t := by
  simp only [scanPositions, h]

theorem scanPositions_cons_some {α : Type} (f : List Char → Option α) (c : Char)
    (t : List Char) (a : α) (h : f (c :: t) = some a) :
    scanPositions f (c :: t) = a :: scanPositions f t := by
  simp only [scanPositions, h]

theorem scanPositions_eq_nil {α : Type} (f : List Char → Option α)
    (hf : ∀ (c : Char) (t : List Char), c ≠ '\x7b' → f (c :: t) = none) :
    ∀ l : List Char, (∀ c ∈ l, c ≠ '\x7b') → scanPositions f l = [] := by
  intro l
  induction l with
  | nil => intro _; rfl
  | cons c cs ih =>
      intro h
      rw [scanPositions_cons_none f c cs (hf c cs (h c (List.mem_cons_self c cs)))]
      exact ih (fun x hx => h x (List.mem_cons_of_mem _ hx))

theorem strMk_toList (s : String) : String.mk s.toList = s := rfl

theorem slot1_chars_ne_brace {c : Char} {cs : List Char} (hc : isIdStart c = true)
    (hcs : ∀ x ∈ cs, isIdChar x = true) :
    ∀ x ∈ c :: (cs ++ ['\x7d']), x ≠ '\x7b' := by
  intro x hx
  rcases List.mem_cons.mp hx with rfl | hx
  · exact isIdStart_ne_brace hc
  · rcases List.mem_append.mp hx with hx | hx
    · exact isIdChar_ne_brace (hcs x hx)
    · rw [List.mem_singleton] at hx
      subst hx
      decide

theorem scan1_slot {c : Char} {cs : List Char} (hc : isIdStart c = true)
    (hcs : ∀ x ∈ cs, isIdChar x = true) :
    scanPositions matchSimpleVarAt ('\x7b' :: c :: (cs ++ ['\x7d'])) = [String.mk (c :: cs)] := by
  have hm : matchSimpleVarAt ('\x7b' :: c :: (cs ++ ['\x7d'])) = some (String.mk (c :: cs)) := by
    simp only [matchSimpleVarAt]
    rw [if_pos (by simp [hc]), dropWhile_append_all cs ['\x7d'] hcs,
      takeWhile_append_all cs ['\x7d'] hcs]
    rw [(by decide : List.dropWhile isIdChar ['\x7d'] = ['\x7d']),
      (by decide : List.takeWhile isIdChar ['\x7d'] = ([] : List Char)), List.append_nil]
    rfl
  rw [scanPositions_cons_some _ _ _ _ hm,
    scanPositions_eq_nil matchSimpleVarAt (fun a t ha => matchSimpleVarAt_not_brace t ha)
      _ (slot1_chars_ne_brace hc hcs)]

theorem scan2_slot1_none {c : Char} {cs : List Char} (hc : isIdStart c = true)
    (hcs : ∀ x ∈ cs, isIdChar x = true) :
    scanPositions matchObjectAccessAt ('\x7b' :: c :: (cs ++ ['\x7d'])) = [] := by
  have hm : matchObjectAccessAt ('\x7b' :: c :: (cs ++ ['\x7d'])) = none := by
    simp only [matchObjectAccessAt]
    rw [if_pos (by simp [hc]), dropWhile_append_all cs ['\x7d'] hcs]
    rfl
  rw [scanPositions_cons_none _ _ _ hm]
  exact scanPositions_eq_nil matchObjectAccessAt
    (fun a t ha => matchObjectAccessAt_not_brace t ha) _ (slot1_chars_ne_brace hc hcs)

theorem scan3_slot1_none {c : Char} {cs : List Char} (hc : isIdStart c = true)
    (hcs : ∀ x ∈ cs, isIdChar x = true) :
    scanPositions matchFunctionCallAt ('\x7b' :: c :: (cs ++ ['\x7d'])) = [] := by
  have hm : matchFunctionCallAt ('\x7b' :: c :: (cs ++ ['\x7d'])) = none := by
    simp only [matchFunctionCallAt]
    rw [if_pos (by simp [hc]), dropWhile_append_all cs ['\x7d'] hcs]
    rfl
  rw [scanPositions_cons_none _ _ _ hm]
  exact scanPositions_eq_nil matchFunctionCallAt
    (fun a t ha => matchFunctionCallAt_not_brace t ha) _ (slot1_chars_ne_brace hc hcs)

theorem dropWhile_cons_false {p : Char → Bool} {c : Char} (h : p c = false)
    (t : List Char) : List.dropWhile p (c :: t) = c :: t := by
  simp [List.dropWhile_cons, h]

theorem takeWhile_cons_false {p : Char → Bool} {c : Char} (h : p c = false)
    (t : List Char) : List.takeWhile p (c :: t) = [] := by
  simp [List.takeWhile_cons, h]

theorem slot2_chars_ne_brace {r0 d : Char} {rs ds : List Char}
    (hr0 : isIdStart r0 = true) (hrs : ∀ x ∈ rs, isIdChar x = true)
    (hd : isIdStart d = true) (hds : ∀ x ∈ ds, isIdDotChar x = true) :
    ∀ x ∈ r0 :: (rs ++ '.' :: d :: (ds ++ ['\x7d'])), x ≠ '\x7b' := by
  intro x hx
  rcases List.mem_cons.mp hx with rfl | hx
  · exact isIdStart_ne_brace hr0
  · rcases List.mem_append.mp hx with hx | hx
    · exact isIdChar_ne_brace (hrs x hx)
    · rcases List.mem_cons.mp hx with rfl | hx
      · decide
      · rcases List.mem_cons.mp hx with rfl | hx
        · exact isIdStart_ne_brace hd
        · rcases List.mem_append.mp hx with hx | hx
          · exact isIdDotChar_ne_brace (hds x hx)
          · rw [List.mem_singleton] at hx
            subst hx
            decide

theorem scan2_slot2 {r0 d : Char} {rs ds : List Char}
    (hr0 : isIdStart r0 = true) (hrs : ∀ x ∈ rs, isIdChar x = true)
    (hd : isIdStart d = true) (hds : ∀ x ∈ ds, isIdDotChar x = true) :
    scanPositions matchObjectAccessAt ('\x7b' :: r0 :: (rs ++ '.' :: d :: (ds ++ ['\x7d'])))
      = [(String.mk (r0 :: rs), String.mk ((r0 :: rs) ++ '.' :: d :: ds))] := by
  have hm : matchObjectAccessAt ('\x7b' :: r0 :: (rs ++ '.' :: d :: (ds ++ ['\x7d'])))
      = some (String.mk (r0 :: rs), String.mk ((r0 :: rs) ++ '.' :: d :: ds)) := by
    simp only [matchObjectAccessAt]
    rw [if_pos (by simp [hr0])]
    rw [dropWhile_append_all rs _ hrs, takeWhile_append_all rs _ hrs,
      dropWhile_cons_false (by decide : isIdChar '.' = false),
      takeWhile_cons_false (by decide : isIdChar '.' = false), List.append_nil]
    show (if isIdStart d = true then
        match List.dropWhile isIdDotChar (ds ++ ['\x7d']) with
        | '\x7d' :: _ => some (String.mk (r0 :: rs),
            String.mk ((r0 :: rs) ++ '.' :: d :: List.takeWhile isIdDotChar (ds ++ ['\x7d'])))
        | _ => none
      else none) = _
    rw [if_pos hd]
    rw [dropWhile_append_all ds _ hds, takeWhile_append_all ds _ hds,
      (by decide : List.dropWhile isIdDotChar ['\x7d'] = ['\x7d']),
      (by decide : List.takeWhile isIdDotChar ['\x7d'] = ([] : List Char)), List.append_nil]
    rfl
  rw [scanPositions_cons_some _ _ _ _ hm,
    scanPositions_eq_nil matchObjectAccessAt
      (fun a t ha => matchObjectAccessAt_not_brace t ha)
      _ (slot2_chars_ne_brace hr0 hrs hd hds)]

theorem scan1_slot2_none {r0 d : Char} {rs ds : List Char}
    (hr0 : isIdStart r0 = true) (hrs : ∀ x ∈ rs, isIdChar x = true)
    (hd : isIdStart d = true) (hds : ∀ x ∈ ds, isIdDotChar x = true) :
    scanPositions matchSimpleVarAt ('\x7b' :: r0 :: (rs ++ '.' :: d :: (ds ++ ['\x7d']))) = [] := by
  have hm : matchSimpleVarAt ('\x7b' :: r0 :: (rs ++ '.' :: d :: (ds ++ ['\x7d']))) = none := by
    simp only [matchSimpleVarAt]
    rw [if_pos (by simp [hr0])]
    rw [dropWhile_append_all rs _ hrs,
      dropWhile_cons_false (by decide : isIdChar '.' = false)]
    rfl
  rw [scanPositions_cons_none _ _ _ hm]
  exact scanPositions_eq_nil matchSimpleVarAt
    (fun a t ha => matchSimpleVarAt_not_brace t ha)
    _ (slot2_chars_ne_brace hr0 hrs hd hds)

theorem scan3_slot2_none {r0 d : Char} {rs ds : List Char}
    (hr0 : isIdStart r0 = true) (hrs : ∀ x ∈ rs, isIdChar x = true)
    (hd : isIdStart d = true) (hds : ∀ x ∈ ds, isIdDotChar x = true) :
    scanPositions matchFunctionCallAt ('\x7b' :: r0 :: (rs ++ '.' :: d :: (ds ++ ['\x7d']))) = [] := by
  have hm : matchFunctionCallAt ('\x7b' :: r0 :: (rs ++ '.' :: d :: (ds ++ ['\x7d']))) = none := by
    simp only [matchFunctionCallAt]
    rw [if_pos (by simp [hr0])]
    rw [dropWhile_append_all rs _ hrs,
      dropWhile_cons_false (by decide : isIdChar '.' = false)]
    rfl
  rw [scanPositions_cons_none _ _ _ hm]
  exact scanPositions_eq_nil matchFunctionCallAt
    (fun a t ha => matchFunctionCallAt_not_brace t ha)
    _ (slot2_chars_ne_brace hr0 hrs hd hds)

theorem slot3_chars_ne_brace {c : Char} {cs : List Char} (hc : isIdStart c = true)
    (hcs : ∀ x ∈ cs, isIdChar x = true) :
    ∀ x ∈ c :: (cs ++ ['(', ')', '\x7d']), x ≠ '\x7b' := by
  intro x hx
  rcases List.mem_cons.mp hx with rfl | hx
  · exact isIdStart_ne_brace hc
  · rcases List.mem_append.mp hx with hx | hx
    · exact isIdChar_ne_brace (hcs x hx)
    · rcases List.mem_cons.mp hx with rfl | hx
      · decide
      · rcases List.mem_cons.mp hx with rfl | hx
        · decide
        · rw [List.mem_singleton] at hx
          subst hx
          decide

theorem scan3_slot3 {c : Char} {cs : List Char} (hc : isIdStart c = true)
    (hcs : ∀ x ∈ cs, isIdChar x = true) :
    scanPositions matchFunctionCallAt ('\x7b' :: c :: (cs ++ ['(', ')', '\x7d']))
      = [String.mk (c :: cs)] := by
  have hm : matchFunctionCallAt ('\x7b' :: c :: (cs ++ ['(', ')', '\x7d']))
      = some (String.mk (c :: cs)) := by
    simp only [matchFunctionCallAt]
    rw [if_pos (by simp [hc]), dropWhile_append_all cs _ hcs,
      takeWhile_append_all cs _ hcs,
      (by decide : List.dropWhile isIdChar ['(', ')', '\x7d'] = ['(', ')', '\x7d']),
      (by decide : List.takeWhile isIdChar ['(', ')', '\x7d'] = ([] : List Char)),
      List.append_nil]
    rfl
  rw [scanPositions_cons_some _ _ _ _ hm,
    scanPositions_eq_nil matchFunctionCallAt
      (fun a t ha => matchFunctionCallAt_not_brace t ha)
      _ (slot3_chars_ne_brace hc hcs)]

theorem scan1_slot3_none {c : Char} {cs : List Char} (hc : isIdStart c = true)
    (hcs : ∀ x ∈ cs, isIdChar x = true) :
    scanPositions matchSimpleVarAt ('\x7b' :: c :: (cs ++ ['(', ')', '\x7d'])) = [] := by
  have hm : matchSimpleVarAt ('\x7b' :: c :: (cs ++ ['(', ')', '\x7d'])) = none := by
    simp only [matchSimpleVarAt]
    rw [if_pos (by simp [hc]), dropWhile_append_all cs _ hcs,
      (by decide : List.dropWhile isIdChar ['(', ')', '\x7d'] = ['(', ')', '\x7d'])]
    rfl
  rw [scanPositions_cons_none _ _ _ hm]
  exact scanPositions_eq_nil matchSimpleVarAt
    (fun a t ha => matchSimpleVarAt_not_brace t ha)
    _ (slot3_chars_ne_brace hc hcs)

theorem scan2_slot3_none {c : Char} {cs : List Char} (hc : isIdStart c = true)
    (hcs : ∀ x ∈ cs, isIdChar x = true) :
    scanPositions matchObjectAccessAt ('\x7b' :: c :: (cs ++ ['(', ')', '\x7d'])) = [] := by
  have hm : matchObjectAccessAt ('\x7b' :: c :: (cs ++ ['(', ')', '\x7d'])) = none := by
    simp only [matchObjectAccessAt]
    rw [if_pos (by simp [hc]), dropWhile_append_all cs _ hcs,
      (by decide : List.dropWhile isIdChar ['(', ')', '\x7d'] = ['(', ')', '\x7d'])]
    rfl
  rw [scanPositions_cons_none _ _ _ hm]
  exact scanPositions_eq_nil matchObjectAccessAt
    (fun a t ha => matchObjectAccessAt_not_brace t ha)
    _ (slot3_chars_ne_brace hc hcs)

/-- C8: on the lexical fallback path, a bare identifier slot registers that
name as an unknown prop with a simple usage; a chain slot registers the root
identifier as an object prop with an object-access usage whose expression is
the inner text with the braces stripped; and a zero-argument call slot
registers the name as a function prop with a function-call usage. -/
theorem fallback_three_passes (name root rest : String) :
    (isValidIdent name = true →
      fallbackPropExtraction ("\x7b" ++ name ++ "\x7d") []
        = [⟨name, PropType.unknown, "any", true, none,
            [⟨UsageType.simple, name, "regex-fallback"⟩]⟩])
  ∧ (isValidIdent root = true → isValidChainRest rest = true →
      fallbackPropExtraction ("\x7b" ++ root ++ "." ++ rest ++ "\x7d") []
        = [⟨root, PropType.object, "any", true, none,
            [⟨UsageType.objectAccess, root ++ "." ++ rest, "regex-fallback"⟩]⟩])
  ∧ (isValidIdent name = true →
      fallbackPropExtraction ("\x7b" ++ name ++ "()\x7d") []
        = [⟨name, PropType.function, "() => void", true, none,
            [⟨UsageType.functionCall, name ++ "()", "regex-fallback"⟩]⟩]) := by
  refine ⟨fun h1 => ?_, fun h2a h2b => ?_, fun h3 => ?_⟩
  · rcases hl : name.toList with _ | ⟨c, cs⟩
    · have hl' : name.data = [] := hl
      simp [isValidIdent, hl'] at h1
    · simp only [isValidIdent, hl, Bool.and_eq_true, List.all_eq_true] at h1
      obtain ⟨hc, hcs⟩ := h1
      have htl : ("\x7b" ++ name ++ "\x7d").toList = '\x7b' :: c :: (cs ++ ['\x7d']) := by
        have h0 : ("\x7b" ++ name ++ "\x7d").toList
            = '\x7b' :: (name.toList ++ ['\x7d']) := rfl
        rw [h0, hl]
        rfl
      simp only [fallbackPropExtraction]
      rw [htl, scan1_slot hc hcs, scan2_slot1_none hc hcs, scan3_slot1_none hc hcs]
      simp only [List.foldl]
      rw [← hl, strMk_toList]
      simp [addProp, hasName]
  · rcases hlr : root.toList with _ | ⟨r0, rs⟩
    · have hlr' : root.data = [] := hlr
      simp [isValidIdent, hlr'] at h2a
    · rcases hlrest : rest.toList with _ | ⟨d, ds⟩
      · have hlrest' : rest.data = [] := hlrest
        simp [isValidChainRest, hlrest'] at h2b
      · simp only [isValidIdent, hlr, Bool.and_eq_true, List.all_eq_true] at h2a
        simp only [isValidChainRest, hlrest, Bool.and_eq_true, List.all_eq_true] at h2b
        obtain ⟨hr0, hrs⟩ := h2a
        obtain ⟨hd, hds⟩ := h2b
        have htl : ("\x7b" ++ root ++ "." ++ rest ++ "\x7d").toList
            = '\x7b' :: r0 :: (rs ++ '.' :: d :: (ds ++ ['\x7d'])) := by
          have h0 : ("\x7b" ++ root ++ "." ++ rest ++ "\x7d").toList
              = '\x7b' :: (((root.toList ++ ['.']) ++ rest.toList) ++ ['\x7d']) := rfl
          rw [h0, hlr, hlrest]
          simp [List.append_assoc]
        have hexpr : String.mk ((r0 :: rs) ++ '.' :: d :: ds) = root ++ "." ++ rest := by
          have h0 : (root ++ "." ++ rest).toList = (root.toList ++ ['.']) ++ rest.toList := rfl
          rw [show ((r0 :: rs) ++ '.' :: d :: ds) = (root ++ "." ++ rest).toList by
            rw [h0, hlr, hlrest]; simp [List.append_assoc]]
          exact strMk_toList _
        simp only [fallbackPropExtraction]
        rw [htl, scan1_slot2_none hr0 hrs hd hds, scan2_slot2 hr0 hrs hd hds,
          scan3_slot2_none hr0 hrs hd hds]
        simp only [List.foldl]
        rw [hexpr, show String.mk (r0 :: rs) = root by rw [← hlr]; exact strMk_toList _]
        simp [addProp, hasName]
  · rcases hl : name.toList with _ | ⟨c, cs⟩
    · have hl' : name.data = [] := hl
      simp [isValidIdent, hl'] at h3
    · simp only [isValidIdent, hl, Bool.and_eq_true, List.all_eq_true] at h3
      obtain ⟨hc, hcs⟩ := h3
      have htl : ("\x7b" ++ name ++ "()\x7d").toList
          = '\x7b' :: c :: (cs ++ ['(', ')', '\x7d']) := by
        have h0 : ("\x7b" ++ name ++ "()\x7d").toList
            = '\x7b' :: (name.toList ++ ['(', ')', '\x7d']) := rfl
        rw [h0, hl]
        rfl
      simp only [fallbackPropExtraction]
      rw [htl, scan1_slot3_none hc hcs, scan2_slot3_none hc hcs, scan3_slot3 hc hcs]
      simp only [List.foldl]
      rw [← hl, strMk_toList]
      simp [addProp, hasName]

/-- Witness for C8 at three concrete slots. -/
theorem fallback_three_passes_witness :
    isValidIdent "title" = true
  ∧ fallbackPropExtraction ("\x7b" ++ "title" ++ "\x7d") []
      = [⟨"title", PropType.unknown, "any", true, none,
          [⟨UsageType.simple, "title", "regex-fallback"⟩]⟩]
  ∧ isValidChainRest "profile.email" = true
  ∧ fallbackPropExtraction ("\x7b" ++ "user" ++ "." ++ "profile.email" ++ "\x7d") []
      = [⟨"user", PropType.object, "any", true, none,
          [⟨UsageType.objectAccess, "user" ++ "." ++ "profile.email", "regex-fallback"⟩]⟩]
  ∧ fallbackPropExtraction ("\x7b" ++ "getData" ++ "()\x7d") []
      = [⟨"getData", PropType.function, "() => void", true, none,
          [⟨UsageType.functionCall, "getData" ++ "()", "regex-fallback"⟩]⟩] :=
  ⟨by decide,
   (fallback_three_passes "title" "user" "profile.email").1 (by decide),
   by decide,
   (fallback_three_passes "title" "user" "profile.email").2.1 (by decide) (by decide),
   (fallback_three_passes "getData" "user" "profile.email").2.2 (by decide)⟩

end Componentify
